import Mathlib

/-!
Verification development for the jotai atom dependency graph engine.

The repository ships documentation (docs/api/core.md), the devtools hook
src/devtools/useAtomsSnapshot.ts and the test suite
tests/utils/atomFamily.test.tsx.  The core store (core/vanilla) and the
atomFamily implementation themselves are not part of the source tree, so the
store, the mount lifecycle manager, the pending-promise bookkeeping and the
family cache are modelled from the specification; the per-element write
function of the derived family and the snapshot copy are translated directly
from the source files that are present.
-/

/-- Modelled from the spec: a derived atom's read function.  The core store
source is missing, so read computations are embedded as a small expression
language: literals, `get` of another atom, pure post-processing of a value,
a conditional branching on a previously read value (nonzero means the branch
is taken), and a synchronous throw.  This is exactly the shape the spec needs:
conditional/dynamic dependencies and synchronously failing reads. -/
inductive ReadExpr where
  | lit : Int → ReadExpr
  | get : Nat → ReadExpr
  | app : (Int → Int) → ReadExpr → ReadExpr
  | cond : ReadExpr → ReadExpr → ReadExpr → ReadExpr
  | fail : String → ReadExpr

/-- Modelled from the spec: an atom configuration is either a primitive value
holder or a derived read computation (core.md: "primitive atom" / "read-only
atom"). -/
inductive AtomSpec where
  | prim : Int → AtomSpec
  | derived : ReadExpr → AtomSpec

/-- Modelled from the spec: the immutable environment assigning to every atom
identity (a `Nat`, standing for the reference identity of the config object)
its configuration. -/
def AtomEnv : Type := Nat → AtomSpec

/-- Modelled from the spec: the mutable store state of one scope -
`valueMap`, `dependencyMap`, the mounted set, plus the set of atoms whose
read computation is currently on the stack (used to fail fast on cyclic
reads, spec section 7). -/
structure StoreState where
  values : List (Nat × Int)
  deps : List (Nat × List Nat)
  mounted : List Nat
  busy : List Nat
deriving DecidableEq

def emptyStore : StoreState := ⟨[], [], [], []⟩

/-- Current committed value of an atom, if any. -/
def lookupVal (st : StoreState) (a : Nat) : Option Int :=
  (st.values.find? (fun p => p.1 == a)).map (fun p => p.2)

/-- Commit a value for an atom (overwriting any previous entry). -/
def setVal (a : Nat) (v : Int) (st : StoreState) : StoreState :=
  { st with values := (a, v) :: st.values.filter (fun p => p.1 != a) }

/-- Drop an atom's committed value (used to invalidate dependents). -/
def removeVal (a : Nat) (st : StoreState) : StoreState :=
  { st with values := st.values.filter (fun p => p.1 != a) }

/-- Replace an atom's recorded dependency list with exactly the given one. -/
def setDeps (a : Nat) (ds : List Nat) (st : StoreState) : StoreState :=
  { st with deps := (a, ds) :: st.deps.filter (fun p => p.1 != a) }

/-- The dependency list recorded for an atom (empty when never computed). -/
def getDeps (st : StoreState) (a : Nat) : List Nat :=
  (((st.deps.find? (fun p => p.1 == a)).map (fun p => p.2)).getD [])

/-- Modelled from the spec: the read procedure of section 4.1.  `evalTrack`
invokes a read computation with the tracking accessor: every `get dep`
resolves `dep` recursively (serving the cached value when present, computing
and committing it otherwise), records `dep` in the trace of this pass, and -
for a derived dep - replaces the dep's own dependency list with exactly the
trace of its pass.  Fuel decreases on every step so the function is total;
an atom already on the read stack fails fast (cyclic dependency). -/
def evalTrack (env : AtomEnv) : Nat → StoreState → ReadExpr →
    Except String (Int × StoreState × List Nat)
  | 0, _, _ => .error "out of fuel"
  | fuel + 1, st, e =>
    match e with
    | .lit n => .ok (n, st, [])
    | .fail msg => .error msg
    | .app f e1 =>
      match evalTrack env fuel st e1 with
      | .error err => .error err
      | .ok (v, st2, ds) => .ok (f v, st2, ds)
    | .cond c t f =>
      match evalTrack env fuel st c with
      | .error err => .error err
      | .ok (vc, st2, dsc) =>
        match evalTrack env fuel st2 (if vc = 0 then f else t) with
        | .error err => .error err
        | .ok (vb, st3, dsb) => .ok (vb, st3, dsc ++ dsb)
    | .get a =>
      match lookupVal st a with
      | some v => .ok (v, st, [a])
      | none =>
        if st.busy.contains a then .error "cycle detected"
        else
          match env a with
          | .prim v => .ok (v, setVal a v st, [a])
          | .derived e2 =>
            match evalTrack env fuel { st with busy := a :: st.busy } e2 with
            | .error err => .error err
            | .ok (v, st2, ds) =>
              .ok (v, setVal a v (setDeps a ds { st2 with busy := st.busy }), [a])

/-- Modelled from the spec: resolving one atom - the entry point of the read
procedure. -/
def readAtom (env : AtomEnv) (fuel : Nat) (st : StoreState) (a : Nat) :
    Except String (Int × StoreState) :=
  match evalTrack env fuel st (.get a) with
  | .error err => .error err
  | .ok (v, st2, _) => .ok (v, st2)

/-- Modelled from the spec: `getValue` returns the value and the updated
store; a synchronously thrown error is propagated unchanged and the store is
left in its prior state. -/
def getValue (env : AtomEnv) (fuel : Nat) (st : StoreState) (a : Nat) :
    Except String Int × StoreState :=
  match readAtom env fuel st a with
  | .ok (v, st2) => (.ok v, st2)
  | .error err => (.error err, st)

/-- Denotational value of a read computation under a fixed valuation of atom
values (the reference semantics the tracking interpreter is compared with). -/
def evalPure : ReadExpr → (Nat → Int) → Except String Int
  | .lit n, _ => .ok n
  | .fail msg, _ => .error msg
  | .get a, mu => .ok (mu a)
  | .app f e, mu =>
    match evalPure e mu with
    | .error err => .error err
    | .ok v => .ok (f v)
  | .cond c t f, mu =>
    match evalPure c mu with
    | .error err => .error err
    | .ok vc => if vc = 0 then evalPure f mu else evalPure t mu

/-- The atoms a read computation reads via `get` under a fixed valuation -
the denotational "set of atoms read during this pass". -/
def readsPure : ReadExpr → (Nat → Int) → List Nat
  | .lit _, _ => []
  | .fail _, _ => []
  | .get a, _ => [a]
  | .app _ e, mu => readsPure e mu
  | .cond c t f, mu =>
    readsPure c mu ++
      match evalPure c mu with
      | .error _ => []
      | .ok vc => if vc = 0 then readsPure f mu else readsPure t mu

/-- The valuation induced by a store's committed values (0 for unset atoms;
only read at atoms that are committed). -/
def valuationOf (st : StoreState) : Nat → Int :=
  fun a => (lookupVal st a).getD 0

/-- Atoms currently depending on `a`, read off the recorded dependency map
(the dependent map of the spec is its exact transpose). -/
def dependentsOf (st : StoreState) (a : Nat) : List Nat :=
  (st.deps.filter (fun p => p.2.contains a)).map (fun p => p.1)

/-- Transitive dependents, breadth-first worklist with fuel. -/
def transClosure (st : StoreState) : Nat → List Nat → List Nat → List Nat
  | 0, _, acc => acc
  | fuel + 1, frontier, acc =>
    match frontier with
    | [] => acc
    | b :: rest =>
      if acc.contains b then transClosure st fuel rest acc
      else transClosure st fuel (rest ++ dependentsOf st b) (acc ++ [b])

/-- Invalidate (mark stale) every atom in the list. -/
def invalidateAll (l : List Nat) (st : StoreState) : StoreState :=
  l.foldl (fun s b => removeVal b s) st

/-- Recompute the listed atoms in order, threading the store. -/
def readAll (env : AtomEnv) (fuel : Nat) : StoreState → List Nat →
    Except String StoreState
  | st, [] => .ok st
  | st, b :: rest =>
    match readAtom env fuel st b with
    | .error err => .error err
    | .ok (_, st2) => readAll env fuel st2 rest

/-- Modelled from the spec: the write propagation of section 4.1.  Commit the
new value, mark the atom's transitive dependents as needing recomputation,
then eagerly recompute those that are currently mounted (unmounted dependents
stay stale and are recomputed lazily on the next read); the eager
recomputation resolves dependencies recursively, so depth order is
respected. -/
def setValue (env : AtomEnv) (fuel : Nat) (st : StoreState) (a : Nat) (v : Int) :
    Except String StoreState :=
  let affected := transClosure st fuel (dependentsOf st a) []
  let st1 := invalidateAll affected (setVal a v st)
  readAll env fuel st1 (affected.filter (fun b => st.mounted.contains b))

/-- Modelled from the spec: a write function body - a sequence of `set`
operations on target atoms (each triggering commit-and-propagate), possibly
throwing synchronously. -/
inductive WriteProg where
  | done : WriteProg
  | throwErr : String → WriteProg
  | setThen : Nat → ReadExpr → WriteProg → WriteProg

/-- Modelled from the spec: the untracked `get` handed to write functions -
it reads current committed values and does not record dependencies. -/
def evalUntracked (st : StoreState) : ReadExpr → Except String Int
  | .lit n => .ok n
  | .fail msg => .error msg
  | .get a =>
    match lookupVal st a with
    | some v => .ok v
    | none => .error "value not available"
  | .app f e =>
    match evalUntracked st e with
    | .error err => .error err
    | .ok v => .ok (f v)
  | .cond c t f =>
    match evalUntracked st c with
    | .error err => .error err
    | .ok vc => if vc = 0 then evalUntracked st f else evalUntracked st t

/-- Modelled from the spec: run a write function body; every `set` commits
and propagates via `setValue`. -/
def runWrite (env : AtomEnv) (fuel : Nat) : StoreState → WriteProg →
    Except String StoreState
  | st, .done => .ok st
  | _, .throwErr msg => .error msg
  | st, .setThen t e rest =>
    match evalUntracked st e with
    | .error err => .error err
    | .ok v =>
      match setValue env fuel st t v with
      | .error err => .error err
      | .ok st2 => runWrite env fuel st2 rest

/-- Modelled from the spec: `setValue` as seen by the caller - a thrown
error is propagated unchanged and the store is left in its prior state. -/
def setValueResult (env : AtomEnv) (fuel : Nat) (st : StoreState)
    (prog : WriteProg) : Except String Unit × StoreState :=
  match runWrite env fuel st prog with
  | .ok st2 => (.ok (), st2)
  | .error err => (.error err, st)

/-- Extract the store from a read result (the empty store on error; only used
at results known to be successful). -/
def resultState (r : Except String (Int × StoreState)) : StoreState :=
  match r with
  | .ok p => p.2
  | .error _ => emptyStore

/-- Extract the store from a write result (the empty store on error; only
used at results known to be successful). -/
def okState (r : Except String StoreState) : StoreState :=
  match r with
  | .ok s => s
  | .error _ => emptyStore

theorem find?_filter_of_imp {γ : Type} (l : List γ) (p q : γ → Bool)
    (h : ∀ x, p x = true → q x = true) :
    (l.filter q).find? p = l.find? p := by
  induction l with
  | nil => rfl
  | cons x xs ih =>
    cases hq : q x with
    | true =>
      cases hp : p x with
      | true => simp [List.filter_cons, hq, List.find?_cons, hp]
      | false => simp [List.filter_cons, hq, List.find?_cons, hp, ih]
    | false =>
      have hp : p x = false := by
        cases hpx : p x with
        | true => rw [h x hpx] at hq; exact absurd hq (by simp)
        | false => rfl
      simp [List.filter_cons, hq, List.find?_cons, hp, ih]

theorem lookupVal_setVal (st : StoreState) (a b : Nat) (v : Int) :
    lookupVal (setVal a v st) b = if b = a then some v else lookupVal st b := by
  by_cases hba : b = a
  · subst hba
    simp [lookupVal, setVal, List.find?_cons]
  · have h1 : ((a : Nat) == b) = false :=
      beq_eq_false_iff_ne.mpr (fun hab => hba hab.symm)
    simp only [lookupVal, setVal, List.find?_cons, h1, if_neg hba]
    rw [find?_filter_of_imp]
    intro x hx
    simp only [beq_iff_eq] at hx
    simp [bne_iff_ne, hx, hba]

theorem lookupVal_setDeps (st : StoreState) (a b : Nat) (ds : List Nat) :
    lookupVal (setDeps a ds st) b = lookupVal st b := rfl

theorem lookupVal_withBusy (st : StoreState) (l : List Nat) (b : Nat) :
    lookupVal { st with busy := l } b = lookupVal st b := rfl

theorem busy_setVal (st : StoreState) (a : Nat) (v : Int) :
    (setVal a v st).busy = st.busy := rfl

theorem busy_setDeps (st : StoreState) (a : Nat) (ds : List Nat) :
    (setDeps a ds st).busy = st.busy := rfl

theorem getDeps_setVal (st : StoreState) (a b : Nat) (v : Int) :
    getDeps (setVal a v st) b = getDeps st b := rfl

theorem getDeps_withBusy (st : StoreState) (l : List Nat) (b : Nat) :
    getDeps { st with busy := l } b = getDeps st b := rfl

theorem getDeps_setDeps (st : StoreState) (a b : Nat) (ds : List Nat) :
    getDeps (setDeps a ds st) b = if b = a then ds else getDeps st b := by
  by_cases hba : b = a
  · subst hba
    simp [getDeps, setDeps, List.find?_cons]
  · have h1 : ((a : Nat) == b) = false :=
      beq_eq_false_iff_ne.mpr (fun hab => hba hab.symm)
    simp only [getDeps, setDeps, List.find?_cons, h1, if_neg hba]
    rw [find?_filter_of_imp]
    intro x hx
    simp only [beq_iff_eq] at hx
    simp [bne_iff_ne, hx, hba]

/-- The facts the tracking interpreter guarantees on success: committed
values grow monotonically, the busy stack is restored, busy atoms keep their
value (in particular an atom being computed is never committed underneath
itself), every traced dependency is committed in the final store, and the
value and the trace agree with the denotational semantics read at the final
store's valuation. -/
def TrackSound (st st2 : StoreState) (e : ReadExpr) (v : Int) (ds : List Nat) : Prop :=
  (∀ b w, lookupVal st b = some w → lookupVal st2 b = some w) ∧
  st2.busy = st.busy ∧
  (∀ x, st.busy.contains x = true → lookupVal st2 x = lookupVal st x) ∧
  (∀ b, b ∈ ds → ∃ w, lookupVal st2 b = some w) ∧
  evalPure e (valuationOf st2) = Except.ok v ∧
  readsPure e (valuationOf st2) = ds

theorem evalPure_stable (e : ReadExpr) (mu nu : Nat → Int)
    (h : ∀ b ∈ readsPure e mu, nu b = mu b) :
    evalPure e nu = evalPure e mu ∧ readsPure e nu = readsPure e mu := by
  induction e with
  | lit n => simp [evalPure, readsPure]
  | fail msg => simp [evalPure, readsPure]
  | get a =>
    have ha := h a (by simp [readsPure])
    simp [evalPure, readsPure, ha]
  | app f e1 ih =>
    have h1 := ih (fun b hb => h b (by simpa [readsPure] using hb))
    simp [evalPure, readsPure, h1.1, h1.2]
  | cond c t f ihc iht ihf =>
    have hc := ihc (fun b hb => h b (by simp [readsPure]; exact Or.inl hb))
    cases hec : evalPure c mu with
    | error err =>
      have hcn : evalPure c nu = Except.error err := by rw [hc.1, hec]
      constructor
      · simp [evalPure, hcn, hec]
      · simp [readsPure, hcn, hec, hc.2]
    | ok vc =>
      have hcn : evalPure c nu = Except.ok vc := by rw [hc.1, hec]
      by_cases hvc : vc = 0
      · have hf := ihf (fun b hb => h b (by
          simp [readsPure, hec, hvc]
          exact Or.inr hb))
        constructor
        · simp [evalPure, hcn, hec, hvc, hf.1]
        · simp [readsPure, hcn, hec, hvc, hf.2, hc.2]
      · have ht := iht (fun b hb => h b (by
          simp [readsPure, hec, hvc]
          exact Or.inr hb))
        constructor
        · simp [evalPure, hcn, hec, hvc, ht.1]
        · simp [readsPure, hcn, hec, hvc, ht.2, hc.2]

theorem evalTrack_sound (env : AtomEnv) (fuel : Nat) :
    ∀ (st : StoreState) (e : ReadExpr) (v : Int) (st2 : StoreState) (ds : List Nat),
    evalTrack env fuel st e = Except.ok (v, st2, ds) → TrackSound st st2 e v ds := by
  induction fuel with
  | zero =>
    intro st e v st2 ds h
    simp [evalTrack] at h
  | succ n ih =>
    intro st e v st2 ds h
    cases e with
    | lit k =>
      simp only [evalTrack, Except.ok.injEq, Prod.mk.injEq] at h
      obtain ⟨h1, h2, h3⟩ := h
      subst h1; subst h2; subst h3
      exact ⟨fun b w hb => hb, rfl, fun x _ => rfl, by simp,
        by simp [evalPure], by simp [readsPure]⟩
    | fail msg => simp [evalTrack] at h
    | app f e1 =>
      simp only [evalTrack] at h
      split at h
      · exact absurd h (by simp)
      · rename_i v1 st1 ds1 heq
        simp only [Except.ok.injEq, Prod.mk.injEq] at h
        obtain ⟨h1, h2, h3⟩ := h
        subst h1; subst h2; subst h3
        obtain ⟨m1, b1, f1, c1, e1s, r1⟩ := ih st e1 v1 st1 ds1 heq
        exact ⟨m1, b1, f1, c1, by simp [evalPure, e1s], by simp [readsPure, r1]⟩
    | cond c t f =>
      simp only [evalTrack] at h
      split at h
      · exact absurd h (by simp)
      · rename_i vc stc dsc heqc
        split at h
        · exact absurd h (by simp)
        · rename_i vb stb dsb heqb
          simp only [Except.ok.injEq, Prod.mk.injEq] at h
          obtain ⟨h1, h2, h3⟩ := h
          subst h1; subst h2; subst h3
          obtain ⟨m1, b1, f1, c1, ec, rc⟩ := ih st c vc stc dsc heqc
          obtain ⟨m2, b2, f2, c2, eb, rb⟩ := ih stc _ vb stb dsb heqb
          -- the reads of the condition stay committed, so its evaluation is
          -- stable from the intermediate store to the final one
          have hstab : ∀ b ∈ readsPure c (valuationOf stc),
              valuationOf stb b = valuationOf stc b := by
            intro b hb
            rw [rc] at hb
            obtain ⟨w, hw⟩ := c1 b hb
            have hw2 := m2 b w hw
            simp [valuationOf, hw, hw2]
          obtain ⟨ecs, rcs⟩ := evalPure_stable c (valuationOf stc) (valuationOf stb) hstab
          refine ⟨fun b w hb => m2 b w (m1 b w hb), by rw [b2, b1], ?_, ?_, ?_, ?_⟩
          · intro x hx
            rw [f2 x (by rw [b1]; exact hx), f1 x hx]
          · intro b hb
            rcases List.mem_append.mp hb with hb1 | hb2
            · obtain ⟨w, hw⟩ := c1 b hb1
              exact ⟨w, m2 b w hw⟩
            · exact c2 b hb2
          · rw [ec] at ecs
            by_cases hvc : vc = 0
            · simp only [evalPure, ecs]
              rw [if_pos hvc]
              simpa [hvc] using eb
            · simp only [evalPure, ecs]
              rw [if_neg hvc]
              simpa [hvc] using eb
          · rw [ec] at ecs
            rw [rc] at rcs
            by_cases hvc : vc = 0
            · simp only [readsPure, ecs, rcs]
              rw [if_pos hvc]
              have hb2 : readsPure f (valuationOf stb) = dsb := by
                simpa [hvc] using rb
              rw [hb2]
            · simp only [readsPure, ecs, rcs]
              rw [if_neg hvc]
              have hb2 : readsPure t (valuationOf stb) = dsb := by
                simpa [hvc] using rb
              rw [hb2]
    | get a =>
      simp only [evalTrack] at h
      split at h
      · rename_i v0 hlv
        simp only [Except.ok.injEq, Prod.mk.injEq] at h
        obtain ⟨h1, h2, h3⟩ := h
        subst h1; subst h2; subst h3
        refine ⟨fun b w hb => hb, rfl, fun x _ => rfl, ?_, ?_, by simp [readsPure]⟩
        · intro b hb
          simp only [List.mem_singleton] at hb
          subst hb
          exact ⟨v0, hlv⟩
        · simp [evalPure, valuationOf, hlv]
      · rename_i hlv
        split at h
        · exact absurd h (by simp)
        · rename_i hbusy
          split at h
          · rename_i w henv
            simp only [Except.ok.injEq, Prod.mk.injEq] at h
            obtain ⟨h1, h2, h3⟩ := h
            subst h1; subst h2; subst h3
            have hxa : ∀ x, st.busy.contains x = true → x ≠ a := by
              intro x hx hxa2
              subst hxa2
              exact hbusy hx
            refine ⟨?_, rfl, ?_, ?_, ?_, by simp [readsPure]⟩
            · intro b u hb
              rw [lookupVal_setVal]
              by_cases hba : b = a
              · subst hba; rw [hlv] at hb; exact absurd hb (by simp)
              · rw [if_neg hba]; exact hb
            · intro x hx
              rw [lookupVal_setVal, if_neg (hxa x hx)]
            · intro b hb
              simp only [List.mem_singleton] at hb
              subst hb
              exact ⟨w, by rw [lookupVal_setVal, if_pos rfl]⟩
            · simp [evalPure, valuationOf, lookupVal_setVal]
          · rename_i e2 henv
            split at h
            · exact absurd h (by simp)
            · rename_i v2 stI ds2 hin
              simp only [Except.ok.injEq, Prod.mk.injEq] at h
              obtain ⟨h1, h2, h3⟩ := h
              subst h1; subst h2; subst h3
              obtain ⟨m1, b1, f1, c1, e1s, r1⟩ :=
                ih { st with busy := a :: st.busy } e2 v2 stI ds2 hin
              have hxa : ∀ x, st.busy.contains x = true → x ≠ a := by
                intro x hx hxa2
                subst hxa2
                exact hbusy hx
              have hIa : lookupVal stI a = none := by
                have hca : (({ st with busy := a :: st.busy } : StoreState).busy.contains a)
                    = true := by simp [List.contains_cons]
                rw [f1 a hca]
                exact hlv
              have hval : ∀ b, lookupVal
                  (setVal a v2 (setDeps a ds2 { stI with busy := st.busy })) b
                  = if b = a then some v2 else lookupVal stI b := by
                intro b
                rw [lookupVal_setVal, lookupVal_setDeps, lookupVal_withBusy]
              refine ⟨?_, rfl, ?_, ?_, ?_, by simp [readsPure]⟩
              · intro b u hb
                rw [hval]
                by_cases hba : b = a
                · subst hba; rw [hlv] at hb; exact absurd hb (by simp)
                · rw [if_neg hba]
                  exact m1 b u hb
              · intro x hx
                rw [hval, if_neg (hxa x hx)]
                refine f1 x ?_
                show ((a :: st.busy).contains x) = true
                simp only [List.contains_cons, hx]
                simp
              · intro b hb
                simp only [List.mem_singleton] at hb
                subst hb
                exact ⟨v2, by rw [hval, if_pos rfl]⟩
              · simp [evalPure, valuationOf, hval]

/-- C1: for every derived atom, after each recomputation of its read
function (a `readAtom` on an atom with no cached value - the path taken both
on first use and after invalidation), the recorded dependency list equals
exactly the list of atoms read via `get` during that most recent pass
(`readsPure` at the resulting store); edges recorded in earlier passes but
not re-read are gone because the recorded set is replaced, not merged. -/
theorem dependency_tracking_exact (env : AtomEnv) (fuel : Nat) (st : StoreState)
    (a : Nat) (e : ReadExpr) (v : Int) (st2 : StoreState)
    (henv : env a = AtomSpec.derived e)
    (hun : lookupVal st a = none)
    (h : readAtom env (fuel + 1) st a = Except.ok (v, st2)) :
    getDeps st2 a = readsPure e (valuationOf st2) ∧ lookupVal st2 a = some v := by
  simp only [readAtom] at h
  split at h
  · exact absurd h (by simp)
  · rename_i v1 stx tr heq
    simp only [Except.ok.injEq, Prod.mk.injEq] at h
    obtain ⟨h1, h2⟩ := h
    subst h1; subst h2
    simp only [evalTrack] at heq
    split at heq
    · rename_i v0 hlv
      rw [hun] at hlv
      exact absurd hlv (by simp)
    · rename_i hlv
      split at heq
      · exact absurd heq (by simp)
      · rename_i hbusy
        split at heq
        · rename_i w henv2
          rw [henv] at henv2
          exact absurd henv2 (by simp)
        · rename_i e2 henv2
          rw [henv] at henv2
          have he : e = e2 := by injection henv2
          subst he
          split at heq
          · exact absurd heq (by simp)
          · rename_i v2 stI ds2 hin
            simp only [Except.ok.injEq, Prod.mk.injEq] at heq
            obtain ⟨hq1, hq2, hq3⟩ := heq
            subst hq1; subst hq2
            obtain ⟨m1, b1, f1, c1, e1s, r1⟩ :=
              evalTrack_sound env fuel { st with busy := a :: st.busy } e v2 stI ds2 hin
            have hIa : lookupVal stI a = none := by
              have hca : (({ st with busy := a :: st.busy } : StoreState).busy.contains a)
                  = true := by simp [List.contains_cons]
              rw [f1 a hca]
              exact hun
            have hval : ∀ b, lookupVal
                (setVal a v2 (setDeps a ds2 { stI with busy := st.busy })) b
                = if b = a then some v2 else lookupVal stI b := by
              intro b
              rw [lookupVal_setVal, lookupVal_setDeps, lookupVal_withBusy]
            have hagree : ∀ b ∈ readsPure e (valuationOf stI),
                valuationOf (setVal a v2 (setDeps a ds2 { stI with busy := st.busy })) b
                = valuationOf stI b := by
              intro b hb
              rw [r1] at hb
              obtain ⟨w, hw⟩ := c1 b hb
              have hba : b ≠ a := by
                intro hba2
                subst hba2
                rw [hIa] at hw
                exact absurd hw (by simp)
              simp [valuationOf, hval, hba, hw]
            obtain ⟨es, rs⟩ :=
              evalPure_stable e (valuationOf stI)
                (valuationOf (setVal a v2 (setDeps a ds2 { stI with busy := st.busy }))) hagree
            constructor
            · rw [getDeps_setVal, getDeps_setDeps, if_pos rfl, rs, r1]
            · rw [hval, if_pos rfl]

def envC1 : AtomEnv := fun a =>
  if a = 0 then .prim 0
  else if a = 1 then .prim 10
  else if a = 2 then .prim 20
  else .derived (.cond (.get 0) (.get 1) (.get 2))

def exprC1 : ReadExpr := .cond (.get 0) (.get 1) (.get 2)

/-- A store holding a stale dependency record for atom 3 from an earlier
pass that took the other conditional branch. -/
def stC1 : StoreState := ⟨[], [(3, [0, 1])], [], []⟩

def stC1out : StoreState := resultState (readAtom envC1 6 stC1 3)

/-- Witness for C1 at a concrete conditional atom: the stale edge to atom 1
is dropped and the recorded list is exactly the reads of the latest pass. -/
theorem dependency_tracking_exact_witness :
    getDeps stC1out 3 = readsPure exprC1 (valuationOf stC1out) ∧
    lookupVal stC1out 3 = some 20 :=
  dependency_tracking_exact envC1 5 stC1 3 exprC1 20 stC1out (by rfl) (by rfl) (by rfl)

/-- A dependency chain A -> B -> C: atom 0 primitive, atom 1 derived from 0
by an arbitrary function, atom 2 derived from 1 by an arbitrary function. -/
def chainEnv (f g : Int → Int) (v0 : Int) : AtomEnv := fun a =>
  if a = 0 then .prim v0
  else if a = 1 then .derived (.app f (.get 0))
  else if a = 2 then .derived (.app g (.get 1))
  else .prim 0

/-- The chain store after atom 2 is mounted (transitively mounting 1 and 0)
and read once, which records the dependency edges. -/
def chainStart (f g : Int → Int) (v0 : Int) : StoreState :=
  resultState (readAtom (chainEnv f g v0) 9 ⟨[], [], [0, 1, 2], []⟩ 2)

/-- The chain store immediately after `setValue` on atom 0 returns. -/
def chainEnd (f g : Int → Int) (v0 w : Int) : StoreState :=
  okState (setValue (chainEnv f g v0) 9 (chainStart f g v0) 0 w)

/-- C2: in a mounted chain A -> B -> C, a write to A recomputes every
affected mounted transitive dependent before `setValue` returns: the store
returned by the write already has C caching `g (f w)` and B caching `f w` -
no reader can observe a partially-propagated state after the write. -/
theorem propagation_completeness (f g : Int → Int) (v0 w : Int) :
    setValue (chainEnv f g v0) 9 (chainStart f g v0) 0 w
      = Except.ok (chainEnd f g v0 w) ∧
    lookupVal (chainEnd f g v0 w) 2 = some (g (f w)) ∧
    lookupVal (chainEnd f g v0 w) 1 = some (f w) ∧
    lookupVal (chainEnd f g v0 w) 0 = some w :=
  ⟨rfl, rfl, rfl, rfl⟩

/-- C6: a synchronously throwing read propagates its error unchanged to the
`getValue` caller and leaves the store in its prior state - the atom stays
uncached, so the next read recomputes from scratch; a synchronously throwing
write propagates its error unchanged to the `setValue` caller with the store
likewise untouched. -/
theorem sync_error_not_poisoning (env : AtomEnv) (fuel : Nat) (st : StoreState)
    (a : Nat) (e : ReadExpr) (err msg : String)
    (henv : env a = AtomSpec.derived e)
    (hun : lookupVal st a = none)
    (hbusy : st.busy.contains a = false)
    (herr : evalTrack env fuel { st with busy := a :: st.busy } e = Except.error err) :
    getValue env (fuel + 1) st a = (Except.error err, st) ∧
    lookupVal ((getValue env (fuel + 1) st a).2) a = none ∧
    setValueResult env fuel st (WriteProg.throwErr msg) = (Except.error msg, st) := by
  have hmem : a ∉ st.busy := by
    simpa using hbusy
  have hread : readAtom env (fuel + 1) st a = Except.error err := by
    simp [readAtom, evalTrack, hun, hmem, henv, herr]
  refine ⟨?_, ?_, rfl⟩
  · simp [getValue, hread]
  · simp [getValue, hread, hun]

def envC6 : AtomEnv := fun a =>
  if a = 0 then .derived (.fail "boom") else .prim 0

/-- Witness for C6 at a concrete throwing read and a concrete throwing
write on the empty store. -/
theorem sync_error_not_poisoning_witness :
    getValue envC6 6 emptyStore 0 = (Except.error "boom", emptyStore) ∧
    lookupVal ((getValue envC6 6 emptyStore 0).2) 0 = none ∧
    setValueResult envC6 5 emptyStore (WriteProg.throwErr "oops")
      = (Except.error "oops", emptyStore) :=
  sync_error_not_poisoning envC6 5 emptyStore 0 (.fail "boom") "boom" "oops"
    (by rfl) (by rfl) (by rfl) (by rfl)

/-- Modelled from the spec: the pending-promise bookkeeping for one async
atom (`pendingPromiseMap`).  `nextId` allocates promise identities, `latest`
is the most recently issued promise for the atom, `committed` is the value
the store has committed together with the promise that committed it (`none`
is the pending marker). -/
structure AsyncState where
  nextId : Nat
  latest : Option Nat
  committed : Option (Nat × Int)
deriving DecidableEq

def initialAsyncState : AsyncState := ⟨0, none, none⟩

/-- Modelled from the spec: a read issuing a fresh promise, or a previously
issued promise resolving with a value. -/
inductive AsyncEvent where
  | issue : AsyncEvent
  | resolve : Nat → Int → AsyncEvent

/-- Modelled from the spec: issuing a read stores the pending marker
immediately and makes the fresh promise the latest; a resolution commits its
value only when it is still the latest promise, otherwise it is silently
discarded. -/
def asyncStep (st : AsyncState) : AsyncEvent → AsyncState
  | .issue => { nextId := st.nextId + 1, latest := some st.nextId, committed := none }
  | .resolve pid v =>
    if st.latest = some pid then { st with committed := some (pid, v) } else st

def runAsync (evs : List AsyncEvent) : AsyncState :=
  evs.foldl asyncStep initialAsyncState

def AsyncInv (st : AsyncState) : Prop :=
  ∀ pid v, st.committed = some (pid, v) → st.latest = some pid

theorem asyncStep_inv (st : AsyncState) (ev : AsyncEvent) (h : AsyncInv st) :
    AsyncInv (asyncStep st ev) := by
  cases ev with
  | issue =>
    intro pid v hc
    simp [asyncStep] at hc
  | resolve q w =>
    intro pid v hc
    by_cases hl : st.latest = some q
    · simp only [asyncStep, if_pos hl, Option.some.injEq, Prod.mk.injEq] at hc
      obtain ⟨hq, _⟩ := hc
      simp only [asyncStep, if_pos hl]
      rw [hl, hq]
    · simp only [asyncStep, if_neg hl] at hc ⊢
      exact h pid v hc

theorem runAsync_aux : ∀ (evs : List AsyncEvent) (st : AsyncState),
    AsyncInv st → AsyncInv (evs.foldl asyncStep st) := by
  intro evs
  induction evs with
  | nil => intro st h; exact h
  | cons e rest ih => intro st h; exact ih _ (asyncStep_inv st e h)

/-- C3: the committed value of an async atom only ever reflects the most
recently issued promise - whenever a value is committed, the promise that
committed it is the latest one; and a resolution of a promise that is no
longer the latest (a superseded read) leaves the state unchanged - its
result is discarded. -/
theorem stale_async_discard :
    (∀ (evs : List AsyncEvent) (pid : Nat) (v : Int),
      (runAsync evs).committed = some (pid, v) → (runAsync evs).latest = some pid) ∧
    (∀ (st : AsyncState) (pid : Nat) (v : Int),
      st.latest ≠ some pid → asyncStep st (.resolve pid v) = st) := by
  constructor
  · intro evs pid v
    refine runAsync_aux evs initialAsyncState ?_ pid v
    intro p w hc
    simp [initialAsyncState] at hc
  · intro st pid v hl
    simp [asyncStep, hl]

/-- Witness for C3: P1 (id 0) and P2 (id 1) issued in order; P1's late
resolution is discarded, P2's resolution is the one committed and it is
indeed the latest promise. -/
theorem stale_async_discard_witness :
    (runAsync [AsyncEvent.issue, AsyncEvent.issue,
      AsyncEvent.resolve 0 5, AsyncEvent.resolve 1 7]).latest = some 1 ∧
    asyncStep (runAsync [AsyncEvent.issue, AsyncEvent.issue]) (AsyncEvent.resolve 0 5)
      = runAsync [AsyncEvent.issue, AsyncEvent.issue] :=
  ⟨stale_async_discard.1 _ 1 7 (by rfl), stale_async_discard.2 _ 0 5 (by decide)⟩

/-- Modelled from the spec: the per-atom mount bookkeeping - the current
subscriber count and how many times the mount and the unmount callback have
fired. -/
structure MountState where
  subs : Nat
  mountCount : Nat
  unmountCount : Nat
deriving DecidableEq

def initialMountState : MountState := ⟨0, 0, 0⟩

/-- Modelled from the spec (section 4.2): one update pass applies its net
subscriber change; the mount callback fires only on the zero-to-positive
transition and the unmount callback only on the positive-to-zero transition,
so no spurious pair fires for an atom whose net subscriber count does not
drop to zero within the pass. -/
def applyPass (st : MountState) (adds removes : Nat) : MountState :=
  { subs := st.subs + adds - removes
    mountCount :=
      if st.subs = 0 ∧ 0 < st.subs + adds - removes
      then st.mountCount + 1 else st.mountCount
    unmountCount :=
      if 0 < st.subs ∧ st.subs + adds - removes = 0
      then st.unmountCount + 1 else st.unmountCount }

def runPasses (ps : List (Nat × Nat)) : MountState :=
  ps.foldl (fun st p => applyPass st p.1 p.2) initialMountState

def MountInv (st : MountState) : Prop :=
  st.mountCount = st.unmountCount + (if 0 < st.subs then 1 else 0)

theorem applyPass_inv (st : MountState) (adds removes : Nat) (h : MountInv st) :
    MountInv (applyPass st adds removes) := by
  unfold MountInv at h ⊢
  unfold applyPass
  dsimp only
  split_ifs at h ⊢ <;> omega

theorem runPasses_aux : ∀ (ps : List (Nat × Nat)) (st : MountState),
    MountInv st → MountInv (ps.foldl (fun s p => applyPass s p.1 p.2) st) := by
  intro ps
  induction ps with
  | nil => intro st h; exact h
  | cons p rest ih => intro st h; exact ih _ (applyPass_inv st p.1 p.2 h)

/-- C5: over any sequence of update passes the unmount callback has fired
exactly once per mount callback invocation except for the currently open
mount (so never twice for one mount); the unmount callback only ever fires
in a pass whose resulting subscriber count is zero (never while a live
subscriber remains); and a pass whose net subscriber count stays positive
fires neither callback (no spurious unmount/mount pair). -/
theorem mount_unmount_pairing :
    (∀ ps : List (Nat × Nat),
      (runPasses ps).mountCount
        = (runPasses ps).unmountCount + (if 0 < (runPasses ps).subs then 1 else 0)) ∧
    (∀ (st : MountState) (adds removes : Nat),
      (applyPass st adds removes).unmountCount ≠ st.unmountCount →
      (applyPass st adds removes).subs = 0) ∧
    (∀ (st : MountState) (adds removes : Nat),
      0 < st.subs → 0 < st.subs + adds - removes →
      (applyPass st adds removes).mountCount = st.mountCount ∧
      (applyPass st adds removes).unmountCount = st.unmountCount) := by
  refine ⟨?_, ?_, ?_⟩
  · intro ps
    exact runPasses_aux ps initialMountState (by simp [MountInv, initialMountState])
  · intro st adds removes h
    unfold applyPass at h ⊢
    dsimp only at h ⊢
    split_ifs at h ⊢
    · omega
    · exact absurd rfl h
  · intro st adds removes h1 h2
    unfold applyPass
    dsimp only
    constructor
    · rw [if_neg]
      intro hc
      omega
    · rw [if_neg]
      intro hc
      omega

/-- Witness for C5: three passes - subscribe (mount fires), a net-zero
churn pass (nothing fires), unsubscribe (unmount fires once, at count
zero). -/
theorem mount_unmount_pairing_witness :
    (runPasses [(1, 0), (2, 2), (0, 1)]).mountCount
      = (runPasses [(1, 0), (2, 2), (0, 1)]).unmountCount
        + (if 0 < (runPasses [(1, 0), (2, 2), (0, 1)]).subs then 1 else 0) ∧
    (applyPass ⟨2, 1, 0⟩ 0 2).subs = 0 ∧
    ((applyPass ⟨1, 1, 0⟩ 2 2).mountCount = 1 ∧
      (applyPass ⟨1, 1, 0⟩ 2 2).unmountCount = 0) :=
  ⟨mount_unmount_pairing.1 _,
   mount_unmount_pairing.2.1 ⟨2, 1, 0⟩ 0 2 (by decide),
   mount_unmount_pairing.2.2 ⟨1, 1, 0⟩ 2 2 (by decide) (by decide)⟩

/-- Modelled from the spec: the atom family cache - the pluggable equality
function, the memoized (parameter, configuration) entries, and a counter
allocating fresh configuration references (standing for the object identity
of a newly created atom config). -/
structure AtomFamily (α : Type) where
  eq : α → α → Bool
  cache : List (α × Nat)
  nextRef : Nat

def freshFamily {α : Type} (eq : α → α → Bool) : AtomFamily α := ⟨eq, [], 0⟩

/-- Lookup of a cached configuration by the family's equality function. -/
def famLookup {α : Type} (f : AtomFamily α) (p : α) : Option Nat :=
  (f.cache.find? (fun kv => f.eq p kv.1)).map (fun kv => kv.2)

/-- Modelled from the spec: `family(parameter)` - return the memoized
configuration when an equal parameter is cached, otherwise create a fresh
configuration via the factory and memoize it. -/
def famGet {α : Type} (f : AtomFamily α) (p : α) : Nat × AtomFamily α :=
  match famLookup f p with
  | some r => (r, f)
  | none =>
    (f.nextRef,
      { f with cache := (p, f.nextRef) :: f.cache, nextRef := f.nextRef + 1 })

/-- Modelled from the spec: `family.remove(parameter)` - evict every cached
entry whose parameter is equal to the given one. -/
def famRemove {α : Type} (f : AtomFamily α) (p : α) : AtomFamily α :=
  { f with cache := f.cache.filter (fun kv => !(f.eq p kv.1)) }

theorem find?_congr_pred {γ : Type} (l : List γ) (p q : γ → Bool)
    (h : ∀ x, p x = q x) : l.find? p = l.find? q := by
  induction l with
  | nil => rfl
  | cons x xs ih =>
    rw [List.find?_cons, List.find?_cons, h x]
    cases hq : q x <;> simp [ih]

theorem find?_filter_not {γ : Type} (l : List γ) (p : γ → Bool) :
    (l.filter (fun x => !(p x))).find? p = none := by
  induction l with
  | nil => rfl
  | cons x xs ih =>
    cases hp : p x <;> simp [List.filter_cons, hp, List.find?_cons, ih]

theorem famLookup_remove_none {α : Type} (f : AtomFamily α) (p : α) :
    famLookup (famRemove f p) p = none := by
  unfold famLookup famRemove
  simp only []
  rw [find?_filter_not]
  rfl

/-- C4: with an equality function that is symmetric and transitive, two
lookups with equal parameters return the identical configuration reference,
and after removal the next lookup returns a configuration with a different
reference. -/
theorem family_identity_stability {α : Type} (f : AtomFamily α) (p q : α)
    (hwf : ∀ kv ∈ f.cache, kv.2 < f.nextRef)
    (hsym : ∀ a b, f.eq a b = f.eq b a)
    (htrans : ∀ a b c, f.eq a b = true → f.eq b c = true → f.eq a c = true)
    (hpq : f.eq p q = true) :
    (famGet (famGet f p).2 q).1 = (famGet f p).1 ∧
    (famGet (famRemove (famGet f p).2 p) p).1 ≠ (famGet f p).1 := by
  have hqp : f.eq q p = true := by rw [hsym]; exact hpq
  have hpoint : ∀ r, f.eq q r = f.eq p r := by
    intro r
    cases hpr : f.eq p r with
    | true => exact htrans q p r hqp hpr
    | false =>
      cases hqr : f.eq q r with
      | true =>
        have hco := htrans p q r hpq hqr
        rw [hpr] at hco
        exact absurd hco (by simp)
      | false => rfl
  cases hl : famLookup f p with
  | some r =>
    have hstable : famLookup f q = some r := by
      unfold famLookup at hl ⊢
      rw [find?_congr_pred f.cache (fun kv => f.eq q kv.1) (fun kv => f.eq p kv.1)
        (fun kv => hpoint kv.1)]
      exact hl
    have hr : r < f.nextRef := by
      unfold famLookup at hl
      rw [Option.map_eq_some'] at hl
      obtain ⟨kv, hfind, hkv⟩ := hl
      rw [← hkv]
      exact hwf kv (List.mem_of_find?_eq_some hfind)
    constructor
    · simp [famGet, hl, hstable]
    · simp only [famGet, hl, famLookup_remove_none]
      simp [famRemove]
      omega
  | none =>
    have hhead : famLookup
        { f with cache := (p, f.nextRef) :: f.cache, nextRef := f.nextRef + 1 } q
        = some f.nextRef := by
      unfold famLookup
      simp [List.find?_cons, hqp]
    constructor
    · simp [famGet, hl, hhead]
    · simp only [famGet, hl, famLookup_remove_none]
      simp [famRemove]

def famC4 : AtomFamily (Fin 3) := ⟨fun a b => a == b, [(1, 0)], 1⟩

/-- Witness for C4 at a concrete one-entry family over a small parameter
type. -/
theorem family_identity_stability_witness :
    (famGet (famGet famC4 1).2 1).1 = (famGet famC4 1).1 ∧
    (famGet (famRemove (famGet famC4 1).2 1) 1).1 ≠ (famGet famC4 1).1 :=
  family_identity_stability famC4 1 1 (by decide) (by decide) (by decide) (by decide)

/-- An object parameter: `ref` stands for the object's reference identity,
`payload` for its structural content. -/
structure ObjParam where
  ref : Nat
  payload : Int
deriving DecidableEq

/-- Modelled from the spec: the default equality of an atom family without
an explicit equality function falls back to reference equality for object
parameters. -/
def refEq (a b : ObjParam) : Bool := a.ref == b.ref

/-- A caller-supplied structural equality function (as in the test's
`(l, r) => l.index === r.index`). -/
def payloadEq (a b : ObjParam) : Bool := a.payload == b.payload

/-- C8: with the default (reference) equality, two distinct but structurally
equal object parameters get distinct configurations; with a caller-supplied
equality function, two parameters it considers equal get the identical
configuration. -/
theorem family_equality_modes {α : Type} (eqC : α → α → Bool) (pc qc : α)
    (p q : ObjParam)
    (hdistinct : p.ref ≠ q.ref) (hstruct : p.payload = q.payload)
    (heq : eqC qc pc = true) :
    (famGet (famGet (freshFamily refEq) p).2 q).1
      ≠ (famGet (freshFamily refEq) p).1 ∧
    (famGet (famGet (freshFamily eqC) pc).2 qc).1
      = (famGet (freshFamily eqC) pc).1 := by
  have hne : (q.ref == p.ref) = false :=
    beq_eq_false_iff_ne.mpr (fun hab => hdistinct hab.symm)
  constructor
  · simp [famGet, famLookup, freshFamily, List.find?_cons, refEq, hne]
  · simp [famGet, famLookup, freshFamily, List.find?_cons, heq]

def objA : ObjParam := ⟨0, 5⟩
def objB : ObjParam := ⟨1, 5⟩

/-- Witness for C8 at two concrete structurally equal objects with distinct
references, and the payload equality function as the custom one. -/
theorem family_equality_modes_witness :
    (famGet (famGet (freshFamily refEq) objA).2 objB).1
      ≠ (famGet (freshFamily refEq) objA).1 ∧
    (famGet (famGet (freshFamily payloadEq) objA).2 objB).1
      = (famGet (freshFamily payloadEq) objA).1 :=
  family_equality_modes payloadEq objA objB objA objB
    (by decide) (by decide) (by decide)

/-- C10: removing a parameter that matches no cached entry leaves the cache
unchanged, so every previously cached parameter still resolves to the same
configuration reference. -/
theorem family_remove_missing_noop {α : Type} (f : AtomFamily α) (q : α)
    (hmiss : ∀ kv ∈ f.cache, f.eq q kv.1 = false) :
    famRemove f q = f ∧
    ∀ p, famGet (famRemove f q) p = famGet f p := by
  have hc : f.cache.filter (fun kv => !(f.eq q kv.1)) = f.cache :=
    List.filter_eq_self.mpr (by intro kv hkv; simp [hmiss kv hkv])
  have h1 : famRemove f q = f := by
    unfold famRemove
    rw [hc]
  exact ⟨h1, fun p => by rw [h1]⟩

def famC10 : AtomFamily (Fin 3) := ⟨fun a b => a == b, [(1, 0)], 1⟩

/-- Witness for C10: removing the uncached parameter 2 changes nothing and
parameter 1 keeps its configuration. -/
theorem family_remove_missing_noop_witness :
    famRemove famC10 2 = famC10 ∧
    famGet (famRemove famC10 2) 1 = famGet famC10 1 :=
  ⟨(family_remove_missing_noop famC10 2 (by decide)).1,
   (family_remove_missing_noop famC10 2 (by decide)).2 1⟩

/-- The update argument of a write: a plain value or an updater function
(`typeof update === 'function'` in the source). -/
inductive SetStateAction (α : Type) where
  | value : α → SetStateAction α
  | func : (α → α) → SetStateAction α

def applyUpdate {α : Type} (update : SetStateAction α) (old : α) : α :=
  match update with
  | .value v => v
  | .func f => f old

/-- Translated from tests/utils/atomFamily.test.tsx (the write function of
the derived atomFamily): if `oldArray[param]` is undefined return the array
unchanged, otherwise build a new array from the slice before `param`, the
new value, and the slice after `param` - the original array is not mutated
(the model is pure, and the construction shares but never alters the
input). -/
def derivedFamilyWrite (param : Nat) (update : SetStateAction Int)
    (oldArray : List Int) : List Int :=
  if h : param < oldArray.length then
    let newValue := applyUpdate update (oldArray.get ⟨param, h⟩)
    oldArray.take param ++ [newValue] ++ oldArray.drop (param + 1)
  else oldArray

theorem take_append_drop_set (l : List Int) (i : Nat) (v : Int) :
    i < l.length → l.take i ++ [v] ++ l.drop (i + 1) = l.set i v := by
  induction l generalizing i with
  | nil => intro h; simp at h
  | cons x xs ih =>
    intro h
    cases i with
    | zero => simp
    | succ n =>
      show (x :: xs.take n) ++ [v] ++ xs.drop (n + 1) = x :: xs.set n v
      rw [List.cons_append, List.cons_append, ih n (by simpa using h)]

/-- C7: writing through the per-element atom at a valid index produces a new
collection whose entry at that index is the updated value and whose every
other entry is unchanged, with the same length; the original collection
value is untouched (purity of the model). -/
theorem split_element_write (oldArray : List Int) (param : Nat)
    (update : SetStateAction Int) (h : param < oldArray.length) :
    (derivedFamilyWrite param update oldArray).length = oldArray.length ∧
    (derivedFamilyWrite param update oldArray)[param]?
      = some (applyUpdate update (oldArray.get ⟨param, h⟩)) ∧
    ∀ j, j ≠ param → (derivedFamilyWrite param update oldArray)[j]? = oldArray[j]? := by
  have hw : derivedFamilyWrite param update oldArray
      = oldArray.set param (applyUpdate update (oldArray.get ⟨param, h⟩)) := by
    unfold derivedFamilyWrite
    rw [dif_pos h]
    exact take_append_drop_set oldArray param _ h
  refine ⟨?_, ?_, ?_⟩
  · rw [hw, List.length_set]
  · rw [hw, List.getElem?_set_self h]
  · intro j hj
    rw [hw, List.getElem?_set_ne (fun hc => hj hc.symm)]

/-- Witness for C7: replacing index 1 of [1, 2, 3] with 9. -/
theorem split_element_write_witness :
    (derivedFamilyWrite 1 (SetStateAction.value 9) [1, 2, 3]).length
      = ([1, 2, 3] : List Int).length ∧
    (derivedFamilyWrite 1 (SetStateAction.value 9) [1, 2, 3])[1]?
      = some (applyUpdate (SetStateAction.value 9)
          (([1, 2, 3] : List Int).get ⟨1, by decide⟩)) ∧
    (derivedFamilyWrite 1 (SetStateAction.value 9) [1, 2, 3])[0]?
      = ([1, 2, 3] : List Int)[0]? :=
  ⟨(split_element_write [1, 2, 3] 1 (SetStateAction.value 9) (by decide)).1,
   (split_element_write [1, 2, 3] 1 (SetStateAction.value 9) (by decide)).2.1,
   (split_element_write [1, 2, 3] 1 (SetStateAction.value 9) (by decide)).2.2 0 (by decide)⟩

/-- A state object as the devtools hook sees it: `ref` stands for the
object's reference identity, `entries` for its top-level key/value pairs. -/
structure StateObject where
  ref : Nat
  entries : List (Nat × Int)
deriving DecidableEq

/-- Translated from src/devtools/useAtomsSnapshot.ts: `getState = (state) =>
({ ...state })` - the spread builds a new object (a fresh reference supplied
by the allocator) carrying the same top-level entries; the original state
object is left untouched. -/
def getState (fresh : Nat) (s : StateObject) : StateObject :=
  { ref := fresh, entries := s.entries }

/-- C9: the snapshot is a shallow copy - a distinct object (any freshly
allocated reference differs from the state's) with exactly the same
top-level entries, so taking it leaves the store's state unchanged. -/
theorem snapshot_shallow_copy (s : StateObject) (fresh : Nat) (h : fresh ≠ s.ref) :
    (getState fresh s).ref ≠ s.ref ∧ (getState fresh s).entries = s.entries :=
  ⟨h, rfl⟩

/-- Witness for C9 at a concrete one-entry state object. -/
theorem snapshot_shallow_copy_witness :
    (getState 1 ⟨0, [(0, 5)]⟩).ref ≠ (⟨0, [(0, 5)]⟩ : StateObject).ref ∧
    (getState 1 ⟨0, [(0, 5)]⟩).entries = (⟨0, [(0, 5)]⟩ : StateObject).entries :=
  snapshot_shallow_copy ⟨0, [(0, 5)]⟩ 1 (by decide)
